import Mathlib

/-
Verification development for the ptm build orchestrator.

The Python sources are shallowly embedded here:
  - src/ptm/loader.py      : the PTM lexer (string-state machine, env-var rewriting)
                             and the PTMLoader cache policy;
  - src/ptm/recipe.py      : BuildTarget, BuildRecipe (freshness check), DependencyTree;
  - src/ptm/system/scheduler.py : BuildScheduler (parallel dispatch loop).

Strings are modelled as `List Char`.  Filesystem state (mtimes, existence) and
subprocess behaviour (which child exits first, with which code) are passed in
as explicit oracle functions, mirroring exactly what the Python code observes.
-/

set_option maxRecDepth 20000

namespace Ptm

def cs (s : String) : List Char := s.toList

/-! Character classes used by the loader regexes.
`lr_space = [ \f\t]*`; the name class is the regex `\w` (modelled here over the
ASCII alphabet that the repository's build files use). -/

def isSpaceFT (c : Char) : Bool := c = ' ' || c = '\t' || c = '\x0c'

def isWordChar (c : Char) : Bool := c.isAlphanum || c = '_'

/-- Length of the maximal leading run of characters satisfying `p`
(the greedy semantics of a regex class repetition). -/
def runLen (p : Char → Bool) : List Char → Nat
  | [] => 0
  | c :: rest => if p c then runLen p rest + 1 else 0

/-- Attempt of the pattern `lr_env_var = \$\x7b[ \f\t]*(\w+)[ \f\t]*\x7d`
anchored at the head of `s`.  On success returns the captured name
(group 1) and the number of characters consumed. -/
def matchEnvVarAt : List Char → Option (List Char × Nat)
  | c0 :: c1 :: r =>
    if c0 = '$' ∧ c1 = '\x7b' then
      let a := runLen isSpaceFT r
      let w := runLen isWordChar (r.drop a)
      if w = 0 then none
      else
        let b := runLen isSpaceFT ((r.drop a).drop w)
        if (((r.drop a).drop w).drop b).head? = some '\x7d' then
          some ((r.drop a).take w, 2 + a + w + b + 1)
        else none
    else none
  | _ => none

/-- The replacement text `ptm.environ['NAME']` produced by `replace_env_var`. -/
def envLookupText (w : List Char) : List Char :=
  ("ptm.environ[\x27").toList ++ w ++ ("\x27]").toList

/-- `re.sub` scan of `replace_env_var`: replace each leftmost, non-overlapping
match of the env-var pattern.  Fuel-indexed so that concrete runs compute; a
step always consumes at least one character, so `fuel = s.length` suffices
(the fuel-exhausted branch returns the rest unchanged). -/
def replaceEnvVarF : Nat → List Char → List Char
  | 0, s => s
  | _ + 1, [] => []
  | fuel + 1, c :: rest =>
    match matchEnvVarAt (c :: rest) with
    | some (w, n) => envLookupText w ++ replaceEnvVarF fuel ((c :: rest).drop n)
    | none => c :: replaceEnvVarF fuel rest

/-- `replace_env_var` from loader.py. -/
def replaceEnvVar (s : List Char) : List Char := replaceEnvVarF s.length s

/-- Attempt of the pattern
`lr_fstr_var = \x7b[ \f\t]*\$(\x7b+)[ \f\t]*(\w+)[ \f\t]*(\x7d+)[ \f\t]*\x7d`
anchored at the head of `s`.  Returns `(len group1, len group3, consumed)`.
The closing-brace group is greedy with one backtracking step: if the maximal
run of `j` closing braces is not followed (after optional spaces) by a final
brace, the regex gives one brace back (possible only when `j ≥ 2`). -/
def matchFstrAt : List Char → Option (Nat × Nat × Nat)
  | '\x7b' :: r0 =>
    let p := runLen isSpaceFT r0
    (match r0.drop p with
     | '$' :: r1 =>
       let g1 := runLen (fun c => c = '\x7b') r1
       if g1 = 0 then none
       else
         let r2 := r1.drop g1
         let a := runLen isSpaceFT r2
         let w := runLen isWordChar (r2.drop a)
         if w = 0 then none
         else
           let r3 := (r2.drop a).drop w
           let b := runLen isSpaceFT r3
           let j := runLen (fun c => c = '\x7d') (r3.drop b)
           if j = 0 then none
           else
             let r4 := (r3.drop b).drop j
             let t := runLen isSpaceFT r4
             match r4.drop t with
             | '\x7d' :: _ => some (g1, j, 1 + p + 1 + g1 + a + w + b + j + t + 1)
             | _ => if 2 ≤ j then some (g1, j - 1, 1 + p + 1 + g1 + a + w + b + j) else none
     | _ => none)
  | _ => none

/-- `fstr_var_pattern.search`: leftmost match.
Returns `(start, len group1, len group3, end)` with absolute offsets. -/
def searchFstr : List Char → Option (Nat × Nat × Nat × Nat)
  | [] => none
  | c :: rest =>
    match matchFstrAt (c :: rest) with
    | some (g1, g3, n) => some (0, g1, g3, n)
    | none =>
      match searchFstr rest with
      | some (st, g1, g3, en) => some (st + 1, g1, g3, en + 1)
      | none => none

/-- `re.search` of a literal pattern (the stored `string_type` terminator has
no regex metacharacters): index of the leftmost occurrence. -/
def searchLit (pat : List Char) : List Char → Option Nat
  | [] => if pat.isPrefixOf ([] : List Char) then some 0 else none
  | c :: rest =>
    if pat.isPrefixOf (c :: rest) then some 0
    else
      match searchLit pat rest with
      | some n => some (n + 1)
      | none => none

/-! String opening prefixes generated by `_string_prefixes()`:
all case permutations of `b r u f br fr` and their reverses, plus the empty
prefix.  At any text position at most one alternative of the resulting
alternation can match (prefix characters are never quote characters), so the
iteration order of the Python `set` is irrelevant. -/

def twoCharPrefs : List (List Char) :=
  [['b','r'], ['b','R'], ['B','r'], ['B','R'],
   ['r','b'], ['r','B'], ['R','b'], ['R','B'],
   ['f','r'], ['f','R'], ['F','r'], ['F','R'],
   ['r','f'], ['r','F'], ['R','f'], ['R','F']]

def oneCharPrefs : List Char := ['b', 'B', 'r', 'R', 'u', 'U', 'f', 'F']

/-- The quote group `('''|\x22\x22\x22|'|\x22)`: alternatives are tried in
order, so a triple quote wins over a single quote at the same position. -/
def tryQuote (s : List Char) : Option (List Char) :=
  if (['\x27','\x27','\x27'] : List Char).isPrefixOf s then some ['\x27','\x27','\x27']
  else if (['"','"','"'] : List Char).isPrefixOf s then some ['"','"','"']
  else if (['\x27'] : List Char).isPrefixOf s then some ['\x27']
  else if (['"'] : List Char).isPrefixOf s then some ['"']
  else none

/-- Attempt of `lr_str_start` (prefix group followed by quote group) anchored
at the head of `s`.  Returns `(prefix contains f or F, terminator, consumed)`. -/
def matchStrStartAt (s : List Char) : Option (Bool × List Char × Nat) :=
  let two : Option (Bool × List Char × Nat) :=
    match s with
    | c1 :: c2 :: rest =>
      if twoCharPrefs.contains [c1, c2] then
        match tryQuote rest with
        | some q => some ((c1 = 'f' || c1 = 'F' || c2 = 'f' || c2 = 'F'), q, 2 + q.length)
        | none => none
      else none
    | _ => none
  match two with
  | some r => some r
  | none =>
    let one : Option (Bool × List Char × Nat) :=
      match s with
      | c1 :: rest =>
        if oneCharPrefs.contains c1 then
          match tryQuote rest with
          | some q => some ((c1 = 'f' || c1 = 'F'), q, 1 + q.length)
          | none => none
        else none
      | _ => none
    match one with
    | some r => some r
    | none =>
      match tryQuote s with
      | some q => some (false, q, q.length)
      | none => none

/-- `str_start_pattern.search`: leftmost string opening.
Returns `(start, is fstring, terminator, end)` with absolute offsets. -/
def searchStrStart : List Char → Option (Nat × Bool × List Char × Nat)
  | [] => none
  | c :: rest =>
    match matchStrStartAt (c :: rest) with
    | some (isF, q, n) => some (0, isF, q, n)
    | none =>
      match searchStrStart rest with
      | some (st, isF, q, en) => some (st + 1, isF, q, en + 1)
      | none => none

/-- The three state variables the lexer carries across lines. -/
structure LexState where
  inConst : Bool
  inF : Bool
  stringType : List Char
deriving Repr, DecidableEq

/-- `paired_braces` from loader.py: the inner opening and closing brace
groups have equal length, and that length is odd. -/
def pairedBraces (g1 g3 : Nat) : Bool := g1 == g3 && g1 % 2 == 1

/-- Outcome of one scan step in the f-string state. -/
inductive FStep where
  | emitRest
  | emitThroughTerm (n : Nat)
  | rewriteVar (st en : Nat)
deriving Repr, DecidableEq

/-- The f-string branch of the lexer (loader.py lines 119-159): decide, for
the current line suffix, whether to emit the rest verbatim (no terminator and
no valid interpolation), emit through the terminator verbatim (terminator,
no valid interpolation), or rewrite the leftmost interpolated variable.
`valid_fstr_var` requires `paired_braces` and, when both a terminator and a
match are present on the line, that the match start strictly precedes the
terminator start. -/
def fstrStep (term s : List Char) : FStep :=
  let mEnd := searchLit term s
  let mF := searchFstr s
  let valid :=
    (match mF with
     | some (_, g1, g3, _) => pairedBraces g1 g3
     | none => false)
    &&
    (match mEnd, mF with
     | some ts, some (fs, _, _, _) => decide (fs < ts)
     | _, _ => true)
  if valid then
    match mF with
    | some (fs, _, _, fe) => FStep.rewriteVar fs fe
    | none => FStep.emitRest
  else
    match mEnd with
    | some ts => FStep.emitThroughTerm (ts + term.length)
    | none => FStep.emitRest

/-- One line of `PTMLexer`'s inner `while pos < max` loop, operating on the
not-yet-consumed suffix of the line.  Returns the emitted output for the rest
of the line together with the state reached at end of line.  Fuel-indexed so
that concrete runs compute; every loop iteration either ends the line or
consumes at least one character (except the zero-width terminator case, which
flips to code state), so the `2 * length + 4` budget used by the driver below
is ample.  The fuel-exhausted branch emits the rest unchanged. -/
def processLineF : Nat → LexState → List Char → List Char × LexState
  | 0, st, s => (s, st)
  | _ + 1, st, [] => ([], st)
  | fuel + 1, st, s =>
    if st.inConst || st.inF then
      if st.inConst then
        match searchLit st.stringType s with
        | some ts =>
          let n := ts + st.stringType.length
          let r := processLineF fuel { st with inConst := false } (s.drop n)
          (s.take n ++ r.1, r.2)
        | none => (s, st)
      else
        match fstrStep st.stringType s with
        | FStep.emitRest => (s, st)
        | FStep.emitThroughTerm n =>
          let r := processLineF fuel { st with inF := false } (s.drop n)
          (s.take n ++ r.1, r.2)
        | FStep.rewriteVar fs fe =>
          let r := processLineF fuel st (s.drop fe)
          (s.take fs ++ replaceEnvVar ((s.drop fs).take (fe - fs)) ++ r.1, r.2)
    else
      match searchStrStart s with
      | some (_, isF, q, en) =>
        let r := processLineF fuel { inConst := !isF, inF := isF, stringType := q } (s.drop en)
        (replaceEnvVar (s.take en) ++ r.1, r.2)
      | none => (replaceEnvVar s, st)

/-- The line loop of `PTMLexer`: `readline` yields the lines in order and
returns an empty string at end of input, which breaks the loop. -/
def lexLinesF : LexState → List (List Char) → List Char
  | _, [] => []
  | st, l :: ls =>
    if l = [] then []
    else
      let r := processLineF (2 * l.length + 4) st l
      r.1 ++ lexLinesF r.2 ls

/-- `PTMLexer` from loader.py, as a function from the list of source lines
(each including its newline, as produced by `readline`) to the rewritten
source text. -/
def PTMLexer (lines : List (List Char)) : List Char :=
  lexLinesF { inConst := false, inF := false, stringType := [] } lines

/-! ### Posix path arithmetic used by `os.path.abspath`, `dirname`, `basename`, `join` -/

def isAbs (p : List Char) : Bool :=
  match p with
  | '/' :: _ => true
  | _ => false

/-- `str.split('/')`. -/
def splitSlash : List Char → List (List Char)
  | [] => [[]]
  | c :: rest =>
    match splitSlash rest with
    | [] => [[]]
    | seg :: segs => if c = '/' then [] :: seg :: segs else (c :: seg) :: segs

/-- The component loop of `posixpath.normpath`. -/
def npFold (initialSlashes : Nat) : List (List Char) → List (List Char) → List (List Char)
  | acc, [] => acc
  | acc, comp :: rest =>
    if comp = [] || comp = ['.'] then npFold initialSlashes acc rest
    else if comp ≠ ['.', '.'] || (initialSlashes = 0 && acc = [])
            || (acc ≠ [] && acc.getLast? = some ['.', '.']) then
      npFold initialSlashes (acc ++ [comp]) rest
    else if acc ≠ [] then npFold initialSlashes acc.dropLast rest
    else npFold initialSlashes acc rest

/-- `posixpath.normpath`. -/
def normpath (p : List Char) : List Char :=
  if p = [] then ['.']
  else
    let initialSlashes : Nat :=
      if isAbs p then
        if (['/', '/'] : List Char).isPrefixOf p ∧ ¬ (['/', '/', '/'] : List Char).isPrefixOf p
        then 2 else 1
      else 0
    let comps := npFold initialSlashes [] (splitSlash p)
    let res := List.replicate initialSlashes '/' ++ List.intercalate ['/'] comps
    if res = [] then ['.'] else res

/-- `posixpath.join a b` for a single extra component. -/
def joinPath (a b : List Char) : List Char :=
  if isAbs b then b
  else if a = [] || a.getLast? == some '/' then a ++ b
  else a ++ '/' :: b

/-- `os.path.abspath` relative to an explicit current working directory. -/
def abspath (cwd p : List Char) : List Char :=
  normpath (if isAbs p then p else joinPath cwd p)

/-- `posixpath.basename`. -/
def baseName (p : List Char) : List Char :=
  p.drop (p.length - (p.reverse.takeWhile (fun c => c ≠ '/')).length)

/-- `posixpath.dirname`. -/
def dirName (p : List Char) : List Char :=
  let i := p.length - (p.reverse.takeWhile (fun c => c ≠ '/')).length
  let head := p.take i
  if head ≠ [] ∧ head.any (fun c => c ≠ '/') then
    (head.reverse.dropWhile (fun c => c = '/')).reverse
  else head

/-! ### recipe.py : BuildTarget, BuildRecipe and the freshness check -/

inductive BuildTargetType where
  | FILE
  | TASK
deriving Repr, DecidableEq

/-- A target's `uid`: the canonical absolute path for a file target, the
Python object id of the task callable for a task target. -/
inductive TUid where
  | path (p : List Char)
  | objId (n : Nat)
deriving Repr, DecidableEq

structure BuildTarget where
  type : BuildTargetType
  name : List Char
  uid : TUid
deriving Repr, DecidableEq

/-- `BuildTarget.__init__` on a path string: `name` keeps the raw spelling,
`uid` is `os.path.abspath(target)` resolved at construction time. -/
def mkFileTarget (cwd target : List Char) : BuildTarget :=
  { type := BuildTargetType.FILE, name := target, uid := TUid.path (abspath cwd target) }

/-- `BuildTarget.__init__` on a callable: `name` is `__name__`, `uid` is
`id(target)`. -/
def mkTaskTarget (name : List Char) (objId : Nat) : BuildTarget :=
  { type := BuildTargetType.TASK, name := name, uid := TUid.objId objId }

/-- `BuildTarget.__eq__`: compares `type`, then `name`, then `uid`; all three
must agree.  (`__hash__` uses only `(type, uid)`.) -/
def btEq (t1 t2 : BuildTarget) : Bool :=
  if t1.type ≠ t2.type then false
  else if t1.name ≠ t2.name then false
  else if t1.uid ≠ t2.uid then false
  else true

/-- The recipe attributes the freshness check and the graph read. -/
structure RecipeCore where
  target : BuildTarget
  depends : List BuildTarget
  external : Bool
deriving Repr, DecidableEq

/-- `_get_timestamp` observed through an mtime oracle `ts` (mtime in
nanoseconds, `0` when the path does not exist, exactly as the Python helper
returns).  A task target's integer uid never reaches `_get_timestamp` because
every call site checks the TASK tag first. -/
def tsOfUid (ts : List Char → Nat) : TUid → Nat
  | TUid.path p => ts p
  | TUid.objId _ => 0

/-- `BuildRecipe._outdate`. -/
def outdate (ts : List Char → Nat) (r : RecipeCore) : Bool :=
  if r.target.type == BuildTargetType.TASK then true
  else
    let m := tsOfUid ts r.target.uid
    if m == 0 then true
    else r.depends.any (fun d =>
      d.type == BuildTargetType.TASK || decide (tsOfUid ts d.uid ≥ m))

def isAbsUid : TUid → Bool
  | TUid.path p => isAbs p
  | TUid.objId _ => false

/-- What `BuildRecipe.build` does with the freshness result: log "up to date"
without invoking the recipe, or (after creating the target's parent directory
when the target is a file with an absolute path) invoke the recipe. -/
inductive BuildOutcome where
  | upToDate
  | invoked (madeDirs : Bool)
deriving Repr, DecidableEq

def buildOutcome (ts : List Char → Nat) (r : RecipeCore) : BuildOutcome :=
  if !(outdate ts r) then BuildOutcome.upToDate
  else BuildOutcome.invoked (r.target.type == BuildTargetType.FILE && isAbsUid r.target.uid)

/-! ### recipe.py : DependencyTree -/

/-- A graph node: a per-build copy of a recipe plus tree bookkeeping
(`depth`, `children`).  Nodes are identified by allocation order `nid`,
mirroring Python object identity. -/
structure TreeNode where
  nid : Nat
  target : BuildTarget
  depends : List BuildTarget
  external : Bool
  depth : Nat
  children : List Nat
deriving Repr, DecidableEq

structure TreeState where
  maxDepth : Nat
  nodes : List TreeNode
  lut : List (BuildTarget × Nat)
deriving Repr, DecidableEq

def lutFind (m : List (BuildTarget × Nat)) (t : BuildTarget) : Option Nat :=
  (m.find? (fun kv => btEq kv.1 t)).map (fun kv => kv.2)

def recipeFind (m : List (BuildTarget × RecipeCore)) (t : BuildTarget) : Option RecipeCore :=
  (m.find? (fun kv => btEq kv.1 t)).map (fun kv => kv.2)

def setNodeDepth (nodes : List TreeNode) (i d : Nat) : List TreeNode :=
  nodes.map (fun n => if n.nid == i then { n with depth := d } else n)

def addChildTo (nodes : List TreeNode) (i c : Nat) : List TreeNode :=
  nodes.map (fun n => if n.nid == i then { n with children := n.children ++ [c] } else n)

/-- Call shape for `_update_subtree_depth`: one node, or the loop over a
child list.  (The explicit shape keeps the recursion structural on fuel, so
concrete trees compute by reduction.) -/
inductive UCall where
  | one (nid pd : Nat)
  | many (ids : List Nat) (pd : Nat)

def updSubF : Nat → UCall → TreeState → TreeState
  | 0, _, st => st
  | fuel + 1, UCall.one nid pd, st =>
    (match st.nodes.get? nid with
     | none => st
     | some nd =>
       let newDepth := pd + 1
       if newDepth ≤ nd.depth then st
       else
         let st1 : TreeState :=
           { st with maxDepth := if st.maxDepth < newDepth then newDepth else st.maxDepth,
                     nodes := setNodeDepth st.nodes nid newDepth }
         updSubF fuel (UCall.many nd.children newDepth) st1)
  | _ + 1, UCall.many [] _, st => st
  | fuel + 1, UCall.many (c :: rest) pd, st =>
    updSubF fuel (UCall.many rest pd) (updSubF fuel (UCall.one c pd) st)

/-- Call shape for `_build_tree`: build one target, or run the dependency
loop of a freshly created node. -/
inductive TCall where
  | node (target : BuildTarget) (history : List BuildTarget) (depth : Nat)
  | deps (nid : Nat) (ds : List BuildTarget) (history : List BuildTarget) (depth : Nat)

/-- `DependencyTree._build_tree`.  `fexists` is the `os.path.exists` oracle.
Returns the node id for the built target (or `none` for the
"existing file with no recipe" leaf case); raising `ValueError` is modelled
by `Except.error`. -/
def treeGo (fexists : List Char → Bool) (recipeLut : List (BuildTarget × RecipeCore)) :
    Nat → TCall → TreeState → Except (List Char) (Option Nat × TreeState)
  | 0, _, _ => Except.error (cs "fuel exhausted")
  | fuel + 1, TCall.node target history depth, st =>
    (match recipeFind recipeLut target with
     | none =>
       if target.type == BuildTargetType.FILE
           && (match target.uid with
               | TUid.path p => fexists p
               | TUid.objId _ => false) then
         Except.ok (none, st)
       else Except.error (cs "target not found")
     | some recipe =>
       let st := if st.maxDepth < depth then { st with maxDepth := depth } else st
       match lutFind st.lut target with
       | some prvId =>
         (match st.nodes.get? prvId with
          | none => Except.ok (some prvId, st)
          | some prv =>
            if prv.depth < depth then
              let st1 : TreeState := { st with nodes := setNodeDepth st.nodes prvId depth }
              Except.ok (some prvId, updSubF (fuel + 1) (UCall.one prvId depth) st1)
            else Except.ok (some prvId, st))
       | none =>
         let nid := st.nodes.length
         let node : TreeNode :=
           { nid := nid, target := recipe.target, depends := recipe.depends,
             external := recipe.external, depth := depth, children := [] }
         let st1 : TreeState := { st with nodes := st.nodes ++ [node], lut := st.lut ++ [(target, nid)] }
         match treeGo fexists recipeLut fuel (TCall.deps nid recipe.depends (history ++ [target]) (depth + 1)) st1 with
         | Except.ok (_, st2) => Except.ok (some nid, st2)
         | Except.error e => Except.error e)
  | _ + 1, TCall.deps _ [] _ _, st => Except.ok (none, st)
  | fuel + 1, TCall.deps nid (dep :: rest) history depth, st =>
    if history.dropLast.any (fun h => btEq h dep) then
      -- circular dependency: the edge is dropped (logged at INFO level)
      treeGo fexists recipeLut fuel (TCall.deps nid rest history depth) st
    else
      match treeGo fexists recipeLut fuel (TCall.node dep history depth) st with
      | Except.ok (childOpt, st1) =>
        let st2 : TreeState :=
          match childOpt with
          | some cid => { st1 with nodes := addChildTo st1.nodes nid cid }
          | none => st1
        treeGo fexists recipeLut fuel (TCall.deps nid rest history depth) st2
      | Except.error e => Except.error e

/-- Depth-map membership used by `_compute_depth_map`: append this node's id
to the bucket of its depth, creating the bucket at the end when absent
(preserving key insertion order, as a Python dict does). -/
def dmAdd (m : List (Nat × List Nat)) (d nid : Nat) : List (Nat × List Nat) :=
  if m.any (fun kv => kv.1 == d) then
    m.map (fun kv => if kv.1 == d then (kv.1, kv.2 ++ [nid]) else kv)
  else m ++ [(d, [nid])]

inductive DCall where
  | one (nid : Nat)
  | many (ids : List Nat)

/-- `DependencyTree._compute_depth_map`: a plain tree traversal from the
root that appends every visited node to its depth bucket — a node reachable
along several parent paths is appended once per path. -/
def depthMapF (nodes : List TreeNode) : Nat → DCall → List (Nat × List Nat) → List (Nat × List Nat)
  | 0, _, m => m
  | fuel + 1, DCall.one nid, m =>
    (match nodes.get? nid with
     | none => m
     | some nd => depthMapF nodes fuel (DCall.many nd.children) (dmAdd m nd.depth nid))
  | _ + 1, DCall.many [], m => m
  | fuel + 1, DCall.many (c :: rest), m =>
    depthMapF nodes fuel (DCall.many rest) (depthMapF nodes fuel (DCall.one c) m)

def insertDesc (x : Nat) : List Nat → List Nat
  | [] => [x]
  | y :: r => if y ≤ x then x :: y :: r else y :: insertDesc x r

/-- `sorted(keys, reverse=True)`. -/
def sortDesc (l : List Nat) : List Nat := l.foldr insertDesc []

structure DepTree where
  root : Option Nat
  st : TreeState
  dmap : List (Nat × List Nat)
deriving Repr, DecidableEq

/-- `DependencyTree.__init__`: build the node graph from the requested
target, then compute the depth map by traversal from the root. -/
def mkDependencyTree (fexists : List Char → Bool) (recipeLut : List (BuildTarget × RecipeCore))
    (target : BuildTarget) (fuel : Nat) : Except (List Char) DepTree :=
  match treeGo fexists recipeLut fuel (TCall.node target [] 0) ⟨0, [], []⟩ with
  | Except.error e => Except.error e
  | Except.ok (rootOpt, st) =>
    let m :=
      match rootOpt with
      | none => []
      | some r => depthMapF st.nodes fuel (DCall.one r) []
    Except.ok { root := rootOpt, st := st, dmap := m }

/-- `DependencyTree.get_build_order`: concatenate the depth buckets in
descending depth order (deepest first). -/
def getBuildOrder (t : DepTree) : List TreeNode :=
  (sortDesc (t.dmap.map (fun kv => kv.1))).foldl
    (fun acc d =>
      acc ++ ((((t.dmap.find? (fun kv => kv.1 == d)).map (fun kv => kv.2)).getD []).filterMap
        (fun nid => t.st.nodes.get? nid)))
    []

/-! ### system/scheduler.py : BuildScheduler -/

/-- Ghost trace events (pure observations; they influence no decision). -/
inductive Ev where
  | launch (nid jobs : Nat)
  | reapDone (nid : Nat)
  | reapFail (nid : Nat) (code : Int)
  | deadlock
deriving Repr, DecidableEq

structure SchedState where
  maxJobs : Nat
  cap : Int
  buildOrder : List TreeNode
  remDeps : List (Nat × Int)
  ptr : Nat
  wip : List (TreeNode × Nat)
  done : List Nat
  error : Option Int
  events : List Ev
deriving Repr, DecidableEq

def assocSet (m : List (Nat × Int)) (k : Nat) (v : Int) : List (Nat × Int) :=
  if m.any (fun kv => kv.1 == k) then
    m.map (fun kv => if kv.1 == k then (k, v) else kv)
  else m ++ [(k, v)]

def assocGetD (m : List (Nat × Int)) (k : Nat) (d : Int) : Int :=
  ((m.find? (fun kv => kv.1 == k)).map (fun kv => kv.2)).getD d

def assocDec (m : List (Nat × Int)) (k : Nat) : List (Nat × Int) :=
  m.map (fun kv => if kv.1 == k then (kv.1, kv.2 - 1) else kv)

/-- `BuildScheduler.__init__`. -/
def initSched (order : List TreeNode) (maxJobs : Nat) : SchedState :=
  { maxJobs := maxJobs, cap := (maxJobs : Int), buildOrder := order,
    remDeps := order.foldl (fun m t => assocSet m t.nid (t.children.length : Int)) [],
    ptr := 0, wip := [], done := [], error := none, events := [] }

/-- `BuildScheduler._launch_task`. -/
def launchTask (s : SchedState) (nd : TreeNode) (jobs : Nat) : SchedState :=
  { s with cap := s.cap - (jobs : Int), wip := s.wip ++ [(nd, jobs)],
           events := s.events ++ [Ev.launch nd.nid jobs] }

/-- The scan loop of `_select_and_launch_tasks` over
`range(ptr, look_ahead_limit)`; `k` is the number of indices left to scan. -/
def selectLoop : Nat → Nat → SchedState → SchedState
  | 0, _, s => s
  | k + 1, i, s =>
    if s.cap ≤ 0 then s
    else
      match s.buildOrder.get? i with
      | none => s
      | some nd =>
        if !(s.done.contains nd.nid) && !(s.wip.any (fun w => w.1.nid == nd.nid))
            && assocGetD s.remDeps nd.nid 0 == 0 then
          selectLoop k (i + 1) (launchTask s nd 1)
        else if nd.external then
          (if s.wip.length == 0 then launchTask s nd s.maxJobs else s)
        else selectLoop k (i + 1) s

def lookAheadLimit (s : SchedState) : Nat :=
  min s.buildOrder.length (s.ptr + 2 * s.maxJobs)

/-- `BuildScheduler._select_and_launch_tasks`. -/
def selectAndLaunch (s : SchedState) : SchedState :=
  selectLoop (lookAheadLimit s - s.ptr) s.ptr s

def advLoop : Nat → SchedState → SchedState
  | 0, s => s
  | k + 1, s =>
    if s.ptr < s.buildOrder.length then
      match s.buildOrder.get? s.ptr with
      | some nd => if s.done.contains nd.nid then advLoop k { s with ptr := s.ptr + 1 } else s
      | none => s
    else s

/-- `BuildScheduler._advance_pointer`. -/
def advancePointer (s : SchedState) : SchedState :=
  advLoop (s.buildOrder.length - s.ptr) s

def doneAdd (l : List Nat) (x : Nat) : List Nat :=
  if l.contains x then l else l ++ [x]

/-- The dependency-count propagation after a successful completion:
`for t in build_order: if recipe.target in t.depends: remaining_deps[t] -= 1`.
The fold runs over `build_order` exactly as written, so a node that occurs
several times in `build_order` is decremented once per occurrence. -/
def decRemDeps (tname : BuildTarget) (order : List TreeNode) (m : List (Nat × Int)) : List (Nat × Int) :=
  order.foldl
    (fun acc t => if t.depends.any (fun d => btEq tname d) then assocDec acc t.nid else acc) m

/-- `BuildScheduler._wait_for_completion` (the `os.waitpid` path).  The
oracle choice names which in-flight entry the OS reaped (insertion order
index) and the exit code obtained from its status; an index that matches no
entry leaves the state unchanged, like a reaped pid not present in `wip`. -/
def waitForCompletion (s : SchedState) (choice : Nat × Int) : SchedState :=
  if s.wip.isEmpty then s
  else
    match s.wip.get? choice.1 with
    | none => s
    | some (nd, alloc) =>
      let s1 : SchedState := { s with wip := s.wip.eraseIdx choice.1, cap := s.cap + (alloc : Int) }
      if choice.2 == 0 then
        { s1 with done := doneAdd s1.done nd.nid,
                  remDeps := decRemDeps nd.target s1.buildOrder s1.remDeps,
                  events := s1.events ++ [Ev.reapDone nd.nid] }
      else
        { s1 with error := some choice.2, events := s1.events ++ [Ev.reapFail nd.nid choice.2] }

/-- Truthiness of `self.error` in `if self.error:` — `None` and `0` are
falsy.  (The code only ever stores non-zero codes.) -/
def errTruthy : Option Int → Bool
  | some e => e != 0
  | none => false

/-- `BuildScheduler.run`.  The oracle lists the reap choices in order; the
result is `some code` when the loop returns, `none` when fuel or oracle runs
out first.  On deadlock the source stores an error message string and
returns 1; the stored message is modelled by `error := some 1`. -/
def schedLoop : Nat → List (Nat × Int) → SchedState → Option Int × SchedState
  | 0, _, s => (none, s)
  | fuel + 1, oracle, s =>
    if errTruthy s.error then (s.error, s)
    else if s.done.length == s.buildOrder.length then (some 0, s)
    else
      let s1 := advancePointer s
      let s2 := selectAndLaunch s1
      if s2.wip.length == 0 then
        if s2.done.length < s2.buildOrder.length then
          (some 1, { s2 with error := some 1, events := s2.events ++ [Ev.deadlock] })
        else (some 0, s2)
      else
        match oracle with
        | [] => (none, s2)
        | c :: rest => schedLoop fuel rest (waitForCompletion s2 c)

/-- End-to-end: tree construction, linearization, scheduling. -/
def runBuild (fexists : List Char → Bool) (recipeLut : List (BuildTarget × RecipeCore))
    (target : BuildTarget) (maxJobs : Nat) (oracle : List (Nat × Int)) (fuel : Nat) :
    Except (List Char) (Option Int × SchedState) :=
  match mkDependencyTree fexists recipeLut target fuel with
  | Except.error e => Except.error e
  | Except.ok t => Except.ok (schedLoop fuel oracle (initSched (getBuildOrder t) maxJobs))

/-! ### loader.py : PTMLoader cache policy -/

/-- `PTMLoader._is_cache_valid`, observed through existence and mtime
oracles (`os.path.getmtime` returns a float; only its ordering matters). -/
def isCacheValid (fexists : List Char → Bool) (mtime : List Char → Int)
    (path cache : List Char) : Bool :=
  if !(fexists cache) then false
  else decide (mtime path ≤ mtime cache)

/-- The observable outcome of `PTMLoader.__init__`. -/
structure LoaderInit where
  isPtm : Bool
  cache : Option (List Char)
  regenerated : Bool
  written : Option (List Char)
deriving Repr, DecidableEq

/-- `PTMLoader.__init__`: for a `.ptm` path, derive the cache path
`dirname(path)/.basename(path).py`, and regenerate it through `PTMLexer`
whenever the cache is invalid. -/
def ptmCachePath (path : List Char) : List Char :=
  joinPath (dirName path) ('.' :: baseName path ++ (".py").toList)

def ptmLoaderInit (fexists : List Char → Bool) (mtime : List Char → Int)
    (sourceLines : List (List Char)) (path : List Char) : LoaderInit :=
  if (".ptm").toList.isSuffixOf path then
    let cache := ptmCachePath path
    if isCacheValid fexists mtime path cache then
      { isPtm := true, cache := some cache, regenerated := false, written := none }
    else
      { isPtm := true, cache := some cache, regenerated := true,
        written := some (PTMLexer sourceLines) }
  else { isPtm := false, cache := none, regenerated := false, written := none }

/-! ### Concrete build graphs used as test vectors -/

/-- Filesystem oracle for graphs made only of task targets. -/
def noFiles : List Char → Bool := fun _ => false

def tgA : BuildTarget := mkTaskTarget (cs "A") 1
def tgB : BuildTarget := mkTaskTarget (cs "B") 2
def tgC : BuildTarget := mkTaskTarget (cs "C") 3
def tgD : BuildTarget := mkTaskTarget (cs "D") 4
def tgX : BuildTarget := mkTaskTarget (cs "X") 5
def tgP : BuildTarget := mkTaskTarget (cs "P") 6
def tgQ : BuildTarget := mkTaskTarget (cs "Q") 7
def tgR : BuildTarget := mkTaskTarget (cs "R") 8
def tgE : BuildTarget := mkTaskTarget (cs "E") 9
def tgAll : BuildTarget := mkTaskTarget (cs "all") 10
def tgT1 : BuildTarget := mkTaskTarget (cs "T1") 11
def tgT2 : BuildTarget := mkTaskTarget (cs "T2") 12

/-- Diamond: `D ← B, C`; `B ← A`; `C ← A`; every target a task. -/
def diamondLut : List (BuildTarget × RecipeCore) :=
  [(tgA, ⟨tgA, [], false⟩), (tgB, ⟨tgB, [tgA], false⟩),
   (tgC, ⟨tgC, [tgA], false⟩), (tgD, ⟨tgD, [tgB, tgC], false⟩)]

/-- Double diamond: `R ← P, Q`; `P ← X`; `Q ← X`; `X ← A, B`. -/
def doubleDiamondLut : List (BuildTarget × RecipeCore) :=
  [(tgA, ⟨tgA, [], false⟩), (tgB, ⟨tgB, [], false⟩), (tgX, ⟨tgX, [tgA, tgB], false⟩),
   (tgP, ⟨tgP, [tgX], false⟩), (tgQ, ⟨tgQ, [tgX], false⟩), (tgR, ⟨tgR, [tgP, tgQ], false⟩)]

/-- `all ← A, E` with `E` external. -/
def externalLut : List (BuildTarget × RecipeCore) :=
  [(tgA, ⟨tgA, [], false⟩), (tgE, ⟨tgE, [], true⟩), (tgAll, ⟨tgAll, [tgA, tgE], false⟩)]

/-- `all ← T1, T2`, independent tasks. -/
def failLut : List (BuildTarget × RecipeCore) :=
  [(tgT1, ⟨tgT1, [], false⟩), (tgT2, ⟨tgT2, [], false⟩), (tgAll, ⟨tgAll, [tgT1, tgT2], false⟩)]

def runResult (e : Except (List Char) (Option Int × SchedState)) : Option Int :=
  match e with
  | Except.ok (r, _) => r
  | Except.error _ => none

def runFinal (e : Except (List Char) (Option Int × SchedState)) : SchedState :=
  match e with
  | Except.ok (_, s) => s
  | Except.error _ => initSched [] 0

/-- Diamond build with 4 job slots; every action exits 0; first-in wip
reaped first. -/
def diamondRun : Except (List Char) (Option Int × SchedState) :=
  runBuild noFiles diamondLut tgD 4 [(0, 0), (0, 0), (0, 0), (0, 0)] 64

/-- Double-diamond build with 2 job slots; every action exits 0; A's process
exits before B's. -/
def ddRun : Except (List Char) (Option Int × SchedState) :=
  runBuild noFiles doubleDiamondLut tgR 2 [(0, 0), (0, 0), (0, 0), (0, 0), (0, 0), (0, 0)] 64

def extOrder : List TreeNode :=
  match mkDependencyTree noFiles externalLut tgAll 64 with
  | Except.ok t => getBuildOrder t
  | Except.error _ => []

/-- Scheduler state right after the first select pass on the external
scenario with 2 job slots. -/
def extSel : SchedState := selectAndLaunch (advancePointer (initSched extOrder 2))

/-- `all ← T1, T2` with 2 job slots; T1's process exits first, with code 3,
while T2 is still in flight. -/
def failRun : Except (List Char) (Option Int × SchedState) :=
  runBuild noFiles failLut tgAll 2 [(0, 3)] 64

/-! ### Specification-side predicates -/

def wipSum (w : List (TreeNode × Nat)) : Int := (w.map (fun p => (p.2 : Int))).sum

/-- The job-cap accounting invariant of claim C6: `cap` equals `max_jobs`
minus the slots allocated to `wip`, and is never negative. -/
def capOK (s : SchedState) : Prop :=
  s.cap = (s.maxJobs : Int) - wipSum s.wip ∧ 0 ≤ s.cap

/-- No suffix of `l` starts with a `$\x7bNAME\x7d` match: `l` contains no
occurrence of the env-var pattern. -/
def noEnvB : List Char → Bool
  | [] => true
  | c :: rest => (matchEnvVarAt (c :: rest)).isNone && noEnvB rest

/-- No suffix of `l` starts with an interpolated-variable match: `l`
contains no occurrence of the `\x7b $\x7bNAME\x7d \x7d` pattern. -/
def noFstrB : List Char → Bool
  | [] => true
  | c :: rest => (matchFstrAt (c :: rest)).isNone && noFstrB rest

/-! ## Theorems -/

/-- C1: the scheduler can spawn a node while one of its declared
dependencies is still running.  In the double-diamond graph X occurs twice in
the build order, so A's completion decrements `remaining_deps[X]` twice
(from 2 straight to 0) and X (children `[3, 4]` = A, B) is launched — event
index 3 — before B's process has terminated (its completion is event
index 4).  This contradicts the ordering guarantee of the claim. -/
theorem scheduler_launches_node_before_dependency_completes :
    (runFinal ddRun).buildOrder.map (fun n => (n.nid, n.target.name))
      = [(3, cs "A"), (4, cs "B"), (3, cs "A"), (4, cs "B"),
         (2, cs "X"), (2, cs "X"), (1, cs "P"), (5, cs "Q"), (0, cs "R")]
  ∧ ((runFinal ddRun).buildOrder.get? 4).map (fun n => n.children) = some [3, 4]
  ∧ (runFinal ddRun).events
      = [Ev.launch 3 1, Ev.launch 4 1, Ev.reapDone 3, Ev.launch 2 1,
         Ev.reapDone 4, Ev.reapDone 2, Ev.launch 1 1, Ev.launch 5 1,
         Ev.reapDone 1, Ev.reapDone 5, Ev.launch 0 1, Ev.reapDone 0, Ev.deadlock]
  ∧ ((runFinal ddRun).events.take 4).contains (Ev.launch 2 1) = true
  ∧ ((runFinal ddRun).events.take 4).contains (Ev.reapDone 4) = false := by
  decide

/-- C2: a ready external node is launched by the first branch of the scan
like a normal node — with 1 job slot and while another node is already in
`wip`.  After the first select pass on `all ← A, E(external)` with
`max_jobs = 2`, `wip` holds both A and E, and E's allocation is 1, not
`max_jobs`. -/
theorem scheduler_external_launched_alongside_others :
    extOrder.map (fun n => (n.nid, n.target.name, n.external))
      = [(1, cs "A", false), (2, cs "E", true), (0, cs "all", false)]
  ∧ extSel.maxJobs = 2
  ∧ extSel.wip.map (fun w => (w.1.nid, w.1.external, w.2)) = [(1, false, 1), (2, true, 1)]
  ∧ extSel.wip.length = 2 := by
  decide

/-- C3: on the diamond graph every action exits 0, A runs exactly once
before B and C, and D runs after both — but because A occurs twice in the
build order, `len(done) = 4` never reaches `len(build_order) = 5` and the
scheduler reports a deadlock and returns 1 instead of 0. -/
theorem scheduler_diamond_deadlocks_after_all_nodes_complete :
    (runFinal diamondRun).buildOrder.map (fun n => n.target.name)
      = [cs "A", cs "A", cs "B", cs "C", cs "D"]
  ∧ (runFinal diamondRun).events
      = [Ev.launch 2 1, Ev.reapDone 2, Ev.launch 1 1, Ev.launch 3 1,
         Ev.reapDone 1, Ev.reapDone 3, Ev.launch 0 1, Ev.reapDone 0, Ev.deadlock]
  ∧ (runFinal diamondRun).events.count (Ev.launch 2 1) = 1
  ∧ (runFinal diamondRun).done = [2, 1, 3, 0]
  ∧ (runFinal diamondRun).buildOrder.length = 5
  ∧ runResult diamondRun = some 1 := by
  decide

/-- C4 counterexample: when T1 exits with code 3 while T2 is in flight, the
scheduler returns 3 immediately — T2 is still in `wip` at return and no reap
event for it ever occurs, so in-flight children are *not* waited for. -/
theorem scheduler_returns_without_reaping_inflight :
    runResult failRun = some 3
  ∧ (runFinal failRun).events = [Ev.launch 1 1, Ev.launch 2 1, Ev.reapFail 1 3]
  ∧ (runFinal failRun).wip.map (fun w => (w.1.nid, w.2)) = [(2, 1)]
  ∧ (runFinal failRun).done = [] := by
  decide

/-- C4 amended: once a non-zero exit code is latched in `error`, the very
next loop iteration returns that code with the state untouched — no new work
is launched and the remaining in-flight children are not reaped by the
scheduler. -/
theorem scheduler_latched_error_returns_immediately
    (fuel : Nat) (oracle : List (Nat × Int)) (s : SchedState) (e : Int)
    (h : s.error = some e) (he : e ≠ 0) :
    schedLoop (fuel + 1) oracle s = (some e, s) := by
  have ht : errTruthy (some e) = true := by
    simp [errTruthy, he]
  simp [schedLoop, h, ht]

theorem scheduler_latched_error_returns_immediately_witness :
    schedLoop 1 [] (runFinal failRun) = (some 3, runFinal failRun) :=
  scheduler_latched_error_returns_immediately 0 [] (runFinal failRun) 3 (by decide) (by decide)

/-- C5: `_outdate` returns stale exactly when the target is a task, the
target file is missing (mtime 0), some dependency is a task, or some
dependency's mtime is ≥ the target's (the comparison is `≥`, not `>`); and
`build` skips the recipe ("up to date") exactly when the check is fresh. -/
theorem outdate_iff_spec (ts : List Char → Nat) (r : RecipeCore) :
    (outdate ts r = true ↔
      (r.target.type = BuildTargetType.TASK
       ∨ tsOfUid ts r.target.uid = 0
       ∨ ∃ d ∈ r.depends, d.type = BuildTargetType.TASK
            ∨ tsOfUid ts r.target.uid ≤ tsOfUid ts d.uid))
  ∧ (buildOutcome ts r = BuildOutcome.upToDate ↔ outdate ts r = false) := by
  constructor
  · by_cases ht : r.target.type = BuildTargetType.TASK
    · simp [outdate, ht]
    · by_cases hm : tsOfUid ts r.target.uid = 0
      · simp [outdate, ht, hm]
      · simp [outdate, ht, hm, List.any_eq_true, ge_iff_le]
  · cases houtd : outdate ts r <;> simp [buildOutcome, houtd]

/-- C9 counterexample: for source `dir/build.ptm` the loader's cache file is
`dir/.build.ptm.py`, not `dir/.build.ptm.cached` as the claim states. -/
theorem loader_cache_name_is_dot_py :
    ptmCachePath (cs "dir/build.ptm") = cs "dir/.build.ptm.py"
  ∧ ptmCachePath (cs "dir/build.ptm") ≠ cs "dir/.build.ptm.cached"
  ∧ (ptmLoaderInit (fun _ => false) (fun _ => 0) [] (cs "dir/build.ptm")).cache
      = some (cs "dir/.build.ptm.py") := by
  decide

/-- C9 amended: for a `.ptm` input the cache is the adjacent
`.basename.py` file; it is valid iff it exists with
`mtime(cache) ≥ mtime(source)`, and when invalid the loader regenerates it
by re-running the lexer on the source. -/
theorem isCacheValid_iff (fexists : List Char → Bool) (mtime : List Char → Int)
    (path cache : List Char) :
    isCacheValid fexists mtime path cache = true ↔
      (fexists cache = true ∧ mtime path ≤ mtime cache) := by
  unfold isCacheValid
  cases hex : fexists cache <;> simp [hex]

theorem loader_cache_policy (fexists : List Char → Bool) (mtime : List Char → Int)
    (lines : List (List Char)) (path : List Char)
    (h : (".ptm").toList.isSuffixOf path = true) :
    (ptmLoaderInit fexists mtime lines path).cache = some (ptmCachePath path)
  ∧ ((ptmLoaderInit fexists mtime lines path).regenerated = false ↔
      (fexists (ptmCachePath path) = true ∧ mtime path ≤ mtime (ptmCachePath path)))
  ∧ ((ptmLoaderInit fexists mtime lines path).regenerated = true →
      (ptmLoaderInit fexists mtime lines path).written = some (PTMLexer lines))
  ∧ ((ptmLoaderInit fexists mtime lines path).regenerated = false →
      (ptmLoaderInit fexists mtime lines path).written = none) := by
  have hinit : ptmLoaderInit fexists mtime lines path =
      (if isCacheValid fexists mtime path (ptmCachePath path) then
        { isPtm := true, cache := some (ptmCachePath path), regenerated := false, written := none }
      else
        { isPtm := true, cache := some (ptmCachePath path), regenerated := true,
          written := some (PTMLexer lines) }) := by
    unfold ptmLoaderInit
    rw [h]
    simp
  cases hv : isCacheValid fexists mtime path (ptmCachePath path) with
  | true =>
    rw [hv] at hinit
    simp only [if_true] at hinit
    have hc := (isCacheValid_iff fexists mtime path (ptmCachePath path)).mp hv
    rw [hinit]
    simp [hc.1, hc.2]
  | false =>
    rw [hv] at hinit
    simp only [Bool.false_eq_true, if_false] at hinit
    have hc : ¬(fexists (ptmCachePath path) = true ∧ mtime path ≤ mtime (ptmCachePath path)) := by
      intro hcc
      rw [(isCacheValid_iff fexists mtime path (ptmCachePath path)).mpr hcc] at hv
      cases hv
    rw [hinit]
    simp [hc]

theorem loader_cache_policy_witness :
    (ptmLoaderInit (fun _ => false) (fun _ => 0) [] (cs "build.ptm")).cache
      = some (ptmCachePath (cs "build.ptm")) :=
  (loader_cache_policy (fun _ => false) (fun _ => 0) [] (cs "build.ptm") (by decide)).1

/-- C10 counterexample: `./a.txt` and `a.txt` in directory `/d` resolve to
the same canonical uid `/d/a.txt` and have the same variant, yet
`BuildTarget.__eq__` returns False because it also compares the raw `name`
spelling. -/
theorem target_eq_requires_name_counterexample :
    (mkFileTarget (cs "/d") (cs "./a.txt")).type = (mkFileTarget (cs "/d") (cs "a.txt")).type
  ∧ (mkFileTarget (cs "/d") (cs "./a.txt")).uid = (mkFileTarget (cs "/d") (cs "a.txt")).uid
  ∧ (mkFileTarget (cs "/d") (cs "./a.txt")).uid = TUid.path (cs "/d/a.txt")
  ∧ btEq (mkFileTarget (cs "/d") (cs "./a.txt")) (mkFileTarget (cs "/d") (cs "a.txt")) = false := by
  decide

theorem wipSum_append (w : List (TreeNode × Nat)) (nd : TreeNode) (j : Nat) :
    wipSum (w ++ [(nd, j)]) = wipSum w + (j : Int) := by
  simp [wipSum]

theorem wipSum_eraseIdx (w : List (TreeNode × Nat)) (i : Nat) (nd : TreeNode) (a : Nat)
    (h : w.get? i = some (nd, a)) :
    wipSum (w.eraseIdx i) = wipSum w - (a : Int) := by
  induction w generalizing i with
  | nil => cases h
  | cons p rest ih =>
    cases i with
    | zero =>
      simp only [List.get?] at h
      injection h with h
      subst h
      simp [wipSum, List.eraseIdx]
    | succ i =>
      simp only [List.get?] at h
      have := ih i h
      simp only [List.eraseIdx, wipSum, List.map_cons, List.sum_cons] at *
      omega

theorem launchTask_capEq (s : SchedState) (nd : TreeNode) (j : Nat)
    (h : s.cap = (s.maxJobs : Int) - wipSum s.wip) :
    (launchTask s nd j).cap
      = ((launchTask s nd j).maxJobs : Int) - wipSum (launchTask s nd j).wip := by
  simp [launchTask, wipSum_append, h]
  ring

theorem selectLoop_capOK (k : Nat) : ∀ (i : Nat) (s : SchedState), capOK s → capOK (selectLoop k i s) := by
  induction k with
  | zero => intro i s hs; exact hs
  | succ k ih =>
    intro i s hs
    rw [selectLoop]
    split
    · exact hs
    · split
      · exact hs
      · next nd _ =>
        split
        · refine ih (i + 1) _ ⟨launchTask_capEq s nd 1 hs.1, ?_⟩
          have hcap : ¬ s.cap ≤ 0 := by assumption
          simp only [launchTask]
          omega
        · split
          · split
            · next hw =>
              have hwip : s.wip = [] := List.length_eq_zero.mp (by exact_mod_cast (by simpa using hw))
              have hsum : wipSum s.wip = 0 := by rw [hwip]; simp [wipSum]
              refine ⟨launchTask_capEq s nd s.maxJobs hs.1, ?_⟩
              simp only [launchTask]
              rw [hs.1, hsum]
              omega
            · exact hs
          · exact ih (i + 1) s hs

theorem advLoop_fields (k : Nat) : ∀ (s : SchedState),
    (advLoop k s).cap = s.cap ∧ (advLoop k s).wip = s.wip ∧ (advLoop k s).maxJobs = s.maxJobs := by
  induction k with
  | zero => intro s; exact ⟨rfl, rfl, rfl⟩
  | succ k ih =>
    intro s
    rw [advLoop]
    split
    · split
      · split
        · exact ih { s with ptr := s.ptr + 1 }
        · exact ⟨rfl, rfl, rfl⟩
      · exact ⟨rfl, rfl, rfl⟩
    · exact ⟨rfl, rfl, rfl⟩

theorem advancePointer_capOK (s : SchedState) (hs : capOK s) : capOK (advancePointer s) := by
  obtain ⟨ha, hb, hc⟩ := advLoop_fields (s.buildOrder.length - s.ptr) s
  unfold advancePointer
  exact ⟨by rw [ha, hb, hc]; exact hs.1, by rw [ha]; exact hs.2⟩

theorem waitForCompletion_capOK (s : SchedState) (c : Nat × Int) (hs : capOK s) :
    capOK (waitForCompletion s c) := by
  unfold waitForCompletion
  split
  · exact hs
  · split
    · exact hs
    · next nd alloc hg =>
      have h1 : wipSum (s.wip.eraseIdx c.1) = wipSum s.wip - (alloc : Int) :=
        wipSum_eraseIdx s.wip c.1 nd alloc hg
      have hcap : s.cap + (alloc : Int)
          = (s.maxJobs : Int) - wipSum (s.wip.eraseIdx c.1) := by
        rw [h1, hs.1]; ring
      have hnn : 0 ≤ s.cap + (alloc : Int) := by
        have := hs.2
        omega
      split
      · exact ⟨hcap, hnn⟩
      · exact ⟨hcap, hnn⟩

theorem schedLoop_capOK (fuel : Nat) : ∀ (oracle : List (Nat × Int)) (s : SchedState),
    capOK s → capOK ((schedLoop fuel oracle s).2) := by
  induction fuel with
  | zero => intro oracle s hs; exact hs
  | succ fuel ih =>
    intro oracle s hs
    rw [schedLoop]
    split
    · exact hs
    · split
      · exact hs
      · have h2 : capOK (selectAndLaunch (advancePointer s)) :=
          selectLoop_capOK _ _ _ (advancePointer_capOK s hs)
        split
        · dsimp only
          split
          · split
            · exact ⟨h2.1, h2.2⟩
            · exact h2
          · exact h2
        · dsimp only
          split
          · split
            · exact ⟨h2.1, h2.2⟩
            · exact h2
          · exact ih _ _ (waitForCompletion_capOK _ _ h2)

theorem initSched_capOK (order : List TreeNode) (mj : Nat) : capOK (initSched order mj) := by
  constructor
  · simp [initSched, wipSum]
  · simp [initSched]

/-- C6: in every state the scheduler's main loop reaches (for any build
order, job budget, reap oracle and iteration count), `cap` equals
`max_jobs` minus the job slots allocated to the nodes in `wip`, and `cap`
is never negative.  The supporting lemmas show the guards that preserve it:
a normal launch takes 1 slot only under `cap > 0`, an external launch takes
`max_jobs` slots only when `wip` is empty (so `cap = max_jobs`), and a reap
returns exactly the reaped node's allocation. -/
theorem scheduler_cap_invariant (order : List TreeNode) (maxJobs : Nat)
    (oracle : List (Nat × Int)) (fuel : Nat) :
    capOK ((schedLoop fuel oracle (initSched order maxJobs)).2) :=
  schedLoop_capOK fuel oracle (initSched order maxJobs) (initSched_capOK order maxJobs)

theorem runLen_take (p : Char → Bool) (l : List Char) (k : Nat) :
    runLen p (l.take k) = min (runLen p l) k := by
  induction l generalizing k with
  | nil => simp [runLen]
  | cons c rest ih =>
    cases k with
    | zero => simp [runLen]
    | succ k =>
      by_cases hp : p c
      · simp only [List.take_cons, runLen, hp, if_true, ih]
        omega
      · simp [runLen, hp]

/-- Truncating a string can only destroy an env-var match, never create one:
the pattern is self-delimiting (each greedy run inside a successful match is
terminated by a later matched character), so a match found in `t.take k` is a
match of `t` with the same capture and length. -/
theorem matchEnvVarAt_take (t : List Char) (k : Nat) (w : List Char) (n : Nat)
    (h : matchEnvVarAt (t.take k) = some (w, n)) : matchEnvVarAt t = some (w, n) := by
  match t, k with
  | [], k =>
    rw [List.take_nil] at h
    exact Option.noConfusion h
  | _ :: [], 0 => exact Option.noConfusion h
  | c :: [], k + 1 =>
    simp only [List.take_succ_cons, List.take_nil] at h
    exact Option.noConfusion h
  | _ :: _ :: _, 0 => exact Option.noConfusion h
  | _ :: _ :: _, 1 => exact Option.noConfusion h
  | c0 :: c1 :: r, (k2 + 2) =>
    have htake : (c0 :: c1 :: r).take (k2 + 2) = c0 :: c1 :: r.take k2 := rfl
    rw [htake] at h
    by_cases hd : c0 = '$' ∧ c1 = '\x7b'
    · obtain ⟨h0, h1⟩ := hd
      subst h0
      subst h1
      simp only [matchEnvVarAt, and_self, if_true, reduceIte] at h ⊢
      rw [runLen_take] at h
      set A := runLen isSpaceFT r with hA
      by_cases hak : k2 ≤ A
      · rw [Nat.min_eq_right hak] at h
        rw [List.drop_take] at h
        simp [runLen] at h
      · have hAle : A ≤ k2 := by omega
        rw [Nat.min_eq_left hAle] at h
        rw [List.drop_take] at h
        rw [runLen_take] at h
        set W := runLen isWordChar (List.drop A r) with hW
        by_cases hwk : k2 - A ≤ W
        · rw [Nat.min_eq_right hwk] at h
          rw [List.drop_take] at h
          have hne : ¬ (k2 - A = 0) := by omega
          rw [Nat.sub_self] at h
          simp [runLen, hne] at h
        · have hWle : W ≤ k2 - A := by omega
          rw [Nat.min_eq_left hWle] at h
          by_cases hw0 : W = 0
          · rw [if_pos hw0] at h
            exact Option.noConfusion h
          · rw [if_neg hw0] at h
            rw [if_neg hw0]
            rw [List.drop_take] at h
            rw [runLen_take] at h
            set B := runLen isSpaceFT (List.drop W (List.drop A r)) with hB
            by_cases hbk : k2 - A - W ≤ B
            · rw [Nat.min_eq_right hbk] at h
              rw [List.drop_take] at h
              rw [Nat.sub_self] at h
              simp at h
            · have hBle : B ≤ k2 - A - W := by omega
              rw [Nat.min_eq_left hBle] at h
              rw [List.drop_take] at h
              rw [List.head?_take] at h
              rw [if_neg (show ¬ (k2 - A - W - B = 0) by omega)] at h
              rw [List.take_take] at h
              rw [Nat.min_eq_left hWle] at h
              exact h
    · simp only [matchEnvVarAt] at h
      rw [if_neg hd] at h
      exact Option.noConfusion h

theorem noEnvB_head (c : Char) (rest : List Char) (hl : noEnvB (c :: rest) = true) :
    matchEnvVarAt (c :: rest) = none ∧ noEnvB rest = true := by
  simp only [noEnvB, Bool.and_eq_true, Option.isNone_iff_eq_none] at hl
  exact hl

theorem noEnvB_drop (l : List Char) (hl : noEnvB l = true) (k : Nat) :
    noEnvB (l.drop k) = true := by
  induction l generalizing k with
  | nil => simpa using hl
  | cons c rest ih =>
    cases k with
    | zero => exact hl
    | succ k => exact ih (noEnvB_head c rest hl).2 k

theorem noEnvB_take (l : List Char) (hl : noEnvB l = true) (k : Nat) :
    noEnvB (l.take k) = true := by
  induction l generalizing k with
  | nil => simpa using hl
  | cons c rest ih =>
    cases k with
    | zero => rfl
    | succ k =>
      rw [List.take_succ_cons]
      simp only [noEnvB, Bool.and_eq_true, Option.isNone_iff_eq_none]
      refine ⟨?_, ih (noEnvB_head c rest hl).2 k⟩
      cases hm : matchEnvVarAt (c :: rest.take k) with
      | none => rfl
      | some p =>
        have := matchEnvVarAt_take (c :: rest) (k + 1) p.1 p.2
          (by rw [List.take_succ_cons]; rw [hm])
        rw [(noEnvB_head c rest hl).1] at this
        exact Option.noConfusion this

theorem replaceEnvVarF_id (f : Nat) : ∀ (s : List Char), noEnvB s = true →
    replaceEnvVarF f s = s := by
  induction f with
  | zero => intro s _; rfl
  | succ f ih =>
    intro s hs
    cases s with
    | nil => rfl
    | cons c rest =>
      obtain ⟨hm, hrest⟩ := noEnvB_head c rest hs
      simp only [replaceEnvVarF, hm]
      rw [ih rest hrest]

theorem replaceEnvVar_id (s : List Char) (hs : noEnvB s = true) : replaceEnvVar s = s :=
  replaceEnvVarF_id s.length s hs

theorem noFstrB_head (c : Char) (rest : List Char) (hl : noFstrB (c :: rest) = true) :
    matchFstrAt (c :: rest) = none ∧ noFstrB rest = true := by
  simp only [noFstrB, Bool.and_eq_true, Option.isNone_iff_eq_none] at hl
  exact hl

theorem noFstrB_drop (l : List Char) (hl : noFstrB l = true) (k : Nat) :
    noFstrB (l.drop k) = true := by
  induction l generalizing k with
  | nil => simpa using hl
  | cons c rest ih =>
    cases k with
    | zero => exact hl
    | succ k => exact ih (noFstrB_head c rest hl).2 k

theorem searchFstr_none (s : List Char) (hs : noFstrB s = true) : searchFstr s = none := by
  induction s with
  | nil => rfl
  | cons c rest ih =>
    obtain ⟨hm, hrest⟩ := noFstrB_head c rest hs
    simp only [searchFstr, hm]
    rw [ih hrest]

theorem fstrStep_no_match (term s : List Char) (h : searchFstr s = none) :
    fstrStep term s =
      (match searchLit term s with
       | some ts => FStep.emitThroughTerm (ts + term.length)
       | none => FStep.emitRest) := by
  simp [fstrStep, h]

/-- On a line free of both rewrite patterns, one full inner-loop pass of the
lexer emits the line unchanged, whatever string state it starts in. -/
theorem processLineF_id (fuel : Nat) : ∀ (st : LexState) (s : List Char),
    noEnvB s = true → noFstrB s = true → (processLineF fuel st s).1 = s := by
  induction fuel with
  | zero => intro st s _ _; rfl
  | succ fuel ih =>
    intro st s henv hf
    cases s with
    | nil => rfl
    | cons c rest =>
      show (processLineF (fuel + 1) st (c :: rest)).1 = c :: rest
      rw [processLineF]
      by_cases hstate : (st.inConst || st.inF) = true
      · rw [if_pos hstate]
        by_cases hconst : st.inConst = true
        · rw [if_pos hconst]
          cases hlit : searchLit st.stringType (c :: rest) with
          | some ts =>
            have hrec := ih { st with inConst := false }
              ((c :: rest).drop (ts + st.stringType.length))
              (noEnvB_drop _ henv _) (noFstrB_drop _ hf _)
            simp only [hrec]
            exact List.take_append_drop _ _
          | none => rfl
        · rw [if_neg hconst]
          have hsf : searchFstr (c :: rest) = none := searchFstr_none _ hf
          rw [fstrStep_no_match st.stringType (c :: rest) hsf]
          cases hlit : searchLit st.stringType (c :: rest) with
          | some ts =>
            have hrec := ih { st with inF := false }
              ((c :: rest).drop (ts + st.stringType.length))
              (noEnvB_drop _ henv _) (noFstrB_drop _ hf _)
            simp only [hrec]
            exact List.take_append_drop _ _
          | none => rfl
      · rw [if_neg hstate]
        cases hss : searchStrStart (c :: rest) with
        | some q =>
          obtain ⟨ps, isF, qt, en⟩ := q
          have hrec := ih { inConst := !isF, inF := isF, stringType := qt }
            ((c :: rest).drop en) (noEnvB_drop _ henv _) (noFstrB_drop _ hf _)
          simp only [hrec]
          rw [replaceEnvVar_id _ (noEnvB_take _ henv _)]
          exact List.take_append_drop _ _
        | none =>
          exact replaceEnvVar_id _ henv
      simp

theorem lexLinesF_join (lines : List (List Char)) : ∀ (st : LexState),
    (∀ l ∈ lines, l ≠ [] ∧ noEnvB l = true ∧ noFstrB l = true) →
    lexLinesF st lines = lines.flatten := by
  induction lines with
  | nil => intro st _; rfl
  | cons l ls ih =>
    intro st h
    have hl := h l (by simp)
    rw [lexLinesF, if_neg hl.1]
    dsimp only
    rw [processLineF_id _ _ _ hl.2.1 hl.2.2]
    rw [ih _ (fun l' hl' => h l' (by simp [hl']))]
    rw [List.flatten_cons]

/-- C8: for any source whose lines (as delivered by `readline`, hence
nonempty) contain no occurrence of the `$\x7bNAME\x7d` pattern and no
occurrence of the `\x7b$\x7bNAME\x7d\x7d` pattern, the lexer is the
identity: its output is the input, character for character. -/
theorem lexer_identity_on_pattern_free_source (lines : List (List Char))
    (hne : ∀ l ∈ lines, l ≠ [])
    (henv : ∀ l ∈ lines, noEnvB l = true)
    (hf : ∀ l ∈ lines, noFstrB l = true) :
    PTMLexer lines = lines.flatten := by
  unfold PTMLexer
  exact lexLinesF_join lines _ (fun l hl => ⟨hne l hl, henv l hl, hf l hl⟩)

theorem lexer_identity_on_pattern_free_source_witness :
    PTMLexer [cs "x = f(1)\n", cs "print(x)\n"]
      = ([cs "x = f(1)\n", cs "print(x)\n"] : List (List Char)).flatten :=
  lexer_identity_on_pattern_free_source [cs "x = f(1)\n", cs "print(x)\n"]
    (by decide) (by decide) (by decide)

theorem pairedBraces_iff (g1 g3 : Nat) :
    pairedBraces g1 g3 = true ↔ (g1 = g3 ∧ g1 % 2 = 1) := by
  simp [pairedBraces]

/-- C7: in the f-string state, the leftmost interpolated-variable match is
rewritten (rather than emitted verbatim) iff its inner opening and closing
brace counts are equal and odd and it starts strictly before the string
terminator when one occurs on the line; concretely, `\x7b$\x7bUSER\x7d\x7d`
inside an f-string is rewritten to `\x7bptm.environ['USER']\x7d`,
`\x7b$\x7b\x7bUSER\x7d\x7d\x7d` is emitted verbatim (even brace counts), and
`$\x7bUSER\x7d` inside a const string is preserved verbatim. -/
theorem fstring_rewrite_iff :
    (∀ (term s : List Char) (fs g1 g3 fe : Nat),
      searchFstr s = some (fs, g1, g3, fe) →
      (fstrStep term s = FStep.rewriteVar fs fe ↔
        (g1 = g3 ∧ g1 % 2 = 1 ∧ ∀ ts, searchLit term s = some ts → fs < ts)))
  ∧ PTMLexer [cs "user = f\"\x7b$\x7bUSER\x7d\x7d\""]
      = cs "user = f\"\x7bptm.environ[\x27USER\x27]\x7d\""
  ∧ PTMLexer [cs "user = f\"\x7b$\x7b\x7bUSER\x7d\x7d\x7d\""]
      = cs "user = f\"\x7b$\x7b\x7bUSER\x7d\x7d\x7d\""
  ∧ PTMLexer [cs "user = \"$\x7bUSER\x7d\""] = cs "user = \"$\x7bUSER\x7d\"" := by
  refine ⟨?_, by decide, by decide, by decide⟩
  intro term s fs g1 g3 fe h
  cases hts : searchLit term s with
  | none =>
    by_cases hp : pairedBraces g1 g3 = true
    · have hp' := (pairedBraces_iff g1 g3).mp hp
      have hstep : fstrStep term s = FStep.rewriteVar fs fe := by
        simp [fstrStep, h, hts, hp]
      rw [hstep]
      constructor
      · intro _
        exact ⟨hp'.1, hp'.2, fun ts' hts' => by cases hts'⟩
      · intro _
        rfl
    · have hp' : ¬(g1 = g3 ∧ g1 % 2 = 1) := fun hcc => hp ((pairedBraces_iff g1 g3).mpr hcc)
      have hstep : fstrStep term s = FStep.emitRest := by
        simp [fstrStep, h, hts, hp]
      rw [hstep]
      constructor
      · intro hcontra
        exact FStep.noConfusion hcontra
      · intro hrhs
        exact absurd ⟨hrhs.1, hrhs.2.1⟩ hp'
  | some ts =>
    by_cases hp : pairedBraces g1 g3 = true
    · have hp' := (pairedBraces_iff g1 g3).mp hp
      by_cases hlt : fs < ts
      · have hstep : fstrStep term s = FStep.rewriteVar fs fe := by
          simp [fstrStep, h, hts, hp, hlt]
        rw [hstep]
        constructor
        · intro _
          refine ⟨hp'.1, hp'.2, fun ts' hts' => ?_⟩
          injection hts' with h2
          omega
        · intro _
          rfl
      · have hstep : fstrStep term s = FStep.emitThroughTerm (ts + term.length) := by
          simp [fstrStep, h, hts, hp, hlt]
        rw [hstep]
        constructor
        · intro hcontra
          exact FStep.noConfusion hcontra
        · intro hrhs
          exact absurd (hrhs.2.2 ts rfl) hlt
    · have hp' : ¬(g1 = g3 ∧ g1 % 2 = 1) := fun hcc => hp ((pairedBraces_iff g1 g3).mpr hcc)
      have hstep : fstrStep term s = FStep.emitThroughTerm (ts + term.length) := by
        simp [fstrStep, h, hts, hp]
      rw [hstep]
      constructor
      · intro hcontra
        exact FStep.noConfusion hcontra
      · intro hrhs
        exact absurd ⟨hrhs.1, hrhs.2.1⟩ hp'

theorem fstring_rewrite_iff_witness :
    fstrStep (['"']) (cs "\x7b$\x7bUSER\x7d\x7d\"") = FStep.rewriteVar 0 9 :=
  (fstring_rewrite_iff.1 (['"']) (cs "\x7b$\x7bUSER\x7d\x7d\"") 0 1 1 9 (by decide)).mpr
    ⟨rfl, by decide, by
      intro ts h
      rw [show searchLit (['"']) (cs "\x7b$\x7bUSER\x7d\x7d\"") = some 9 from by decide] at h
      injection h with h
      omega⟩

/-- C10 amended: two targets are equal iff their variant, their raw `name`,
and their identifier `uid` all match. -/
theorem target_eq_iff_type_name_uid (t1 t2 : BuildTarget) :
    btEq t1 t2 = true ↔ (t1.type = t2.type ∧ t1.name = t2.name ∧ t1.uid = t2.uid) := by
  unfold btEq
  by_cases h1 : t1.type = t2.type <;> by_cases h2 : t1.name = t2.name <;>
    by_cases h3 : t1.uid = t2.uid <;> simp [h1, h2, h3]

end Ptm
